import Mathlib

/-!
Verification development for the `encrypted_images` crate.

The crate exposes two pairs of entry points:

* `encrypts` / `decrypts` (src/encryption/text.rs, src/decryption/text.rs):
  AES-128-CBC with an HMAC-SHA256 integrity tag, payload `IV(16) ‖ Tag(32) ‖
  CipherText`, base64-wrapped;
* `create_img` / `decode_image_and_extract_text` (src/encryption/images.rs,
  src/decryption/images.rs): a steganographic raster codec driven by a
  character/color table.

Modelling conventions:

* Rust byte strings are `List Nat` with entries `< 256`; character strings of
  the image layer are `List Char` (those call sites only ever index characters).
* Functions that can panic in Rust (out-of-range slices, `unwrap`) return
  `RResult α`, whose `panic` constructor marks the abort; a clean `None` is
  `.ok none`.
* The base64 engine (`engine::GeneralPurpose::new(&alphabet::STANDARD,
  general_purpose::PAD)`, i.e. standard alphabet, canonical padding required,
  no trailing garbage bits) and HMAC-SHA256 (openssl `Signer` over
  `MessageDigest::sha256`) are implemented concretely below.
* AES-128-CBC (openssl `Cipher::aes_128_cbc`) and the raster (PNG) codec of
  the `image` crate are external libraries; they are modelled as interfaces
  (`BlockCipher`, `ImgCodec`) whose fields carry exactly the properties the
  libraries guarantee, with concrete instances used for witnesses.
* `u32` arithmetic that can underflow (`width / 2 - center_w / 2` in
  `create_img`) is modelled with wrap-around (release-profile semantics).
-/

/-- Result of running a Rust function that may panic: either the returned
value or an aborted execution. -/
inductive RResult (α : Type) where
  | ok : α → RResult α
  | panic : RResult α
deriving DecidableEq

/-- Byte sequence of an ASCII string literal (all string constants of the
crate are ASCII, where UTF-8 bytes and code points coincide). -/
def strBytes (s : String) : List Nat :=
  s.data.map Char.toNat

/-! ## Base64 (standard alphabet, canonical padding)

Model of the crate's `CUSTOM_ENGINE` (`alphabet::STANDARD`,
`general_purpose::PAD`): encoding emits padded base64; decoding requires the
length to be a multiple of four, canonical `=` padding confined to the final
group, and zero trailing bits. -/

def b64CharTable : List Nat :=
  (List.range 26).map (· + 65) ++ (List.range 26).map (· + 97) ++
    (List.range 10).map (· + 48) ++ [43, 47]

def b64Char (v : Nat) : Nat := b64CharTable.getD v 0

def b64Index (c : Nat) : Option Nat :=
  if 65 ≤ c ∧ c ≤ 90 then some (c - 65)
  else if 97 ≤ c ∧ c ≤ 122 then some (c - 71)
  else if 48 ≤ c ∧ c ≤ 57 then some (c + 4)
  else if c = 43 then some 62
  else if c = 47 then some 63
  else none

def b64Encode : List Nat → List Nat
  | [] => []
  | [a] => [b64Char (a / 4), b64Char (a % 4 * 16), 61, 61]
  | [a, b] => [b64Char (a / 4), b64Char (a % 4 * 16 + b / 16), b64Char (b % 16 * 4), 61]
  | a :: b :: c :: rest =>
      b64Char (a / 4) :: b64Char (a % 4 * 16 + b / 16) ::
        b64Char (b % 16 * 4 + c / 64) :: b64Char (c % 64) :: b64Encode rest

def b64Decode : List Nat → Option (List Nat)
  | [] => some []
  | c1 :: c2 :: c3 :: c4 :: rest =>
      match b64Index c1, b64Index c2 with
      | some v1, some v2 =>
          if rest = [] ∧ c3 = 61 ∧ c4 = 61 then
            if v2 % 16 = 0 then some [v1 * 4 + v2 / 16] else none
          else if rest = [] ∧ c4 = 61 then
            match b64Index c3 with
            | some v3 =>
                if v3 % 4 = 0 then some [v1 * 4 + v2 / 16, v2 % 16 * 16 + v3 / 4]
                else none
            | none => none
          else
            match b64Index c3, b64Index c4 with
            | some v3, some v4 =>
                (b64Decode rest).map fun tail =>
                  (v1 * 4 + v2 / 16) :: (v2 % 16 * 16 + v3 / 4) :: (v3 % 4 * 64 + v4) :: tail
            | _, _ => none
      | _, _ => none
  | _ => none

theorem mul16_add_div (x d : Nat) (hd : d < 16) : (x * 16 + d) / 16 = x := by omega

theorem mul16_add_mod (x d : Nat) (hd : d < 16) : (x * 16 + d) % 16 = d := by omega

theorem mul4_add_div (x d : Nat) (hd : d < 4) : (x * 4 + d) / 4 = x := by omega

theorem mul4_add_mod (x d : Nat) (hd : d < 4) : (x * 4 + d) % 4 = d := by omega

theorem b64Index_b64Char : ∀ v < 64, b64Index (b64Char v) = some v := by decide

theorem b64Char_ne_61 : ∀ v < 64, b64Char v ≠ 61 := by decide

theorem b64Char_lt (v : Nat) : b64Char v < 256 := by
  by_cases h : v < 64
  · exact (by decide : ∀ v < 64, b64Char v < 256) v h
  · have hlen : b64CharTable.length ≤ v := by
      have : b64CharTable.length = 64 := by decide
      omega
    rw [b64Char, List.getD_eq_default _ _ hlen]
    norm_num

theorem b64Decode_b64Encode (bs : List Nat) (h : ∀ x ∈ bs, x < 256) :
    b64Decode (b64Encode bs) = some bs := by
  induction bs using b64Encode.induct with
  | case1 => simp [b64Encode, b64Decode]
  | case2 a =>
      have ha : a < 256 := h a (by simp)
      have h1 : a / 4 < 64 := by omega
      have h2 : a % 4 * 16 < 64 := by omega
      simp only [b64Encode, b64Decode, b64Index_b64Char _ h1, b64Index_b64Char _ h2]
      rw [if_pos (by simp), if_pos (by omega)]
      congr 2
      omega
  | case3 a b =>
      have ha : a < 256 := h a (by simp)
      have hb : b < 256 := h b (by simp)
      have h1 : a / 4 < 64 := by omega
      have h2 : a % 4 * 16 + b / 16 < 64 := by omega
      have h3 : b % 16 * 4 < 64 := by omega
      simp only [b64Encode, b64Decode, b64Index_b64Char _ h1, b64Index_b64Char _ h2,
        b64Index_b64Char _ h3]
      rw [if_neg (fun hh => b64Char_ne_61 _ h3 hh.2.1), if_pos (by simp)]
      rw [if_pos (by omega)]
      rw [mul16_add_div _ _ (by omega), mul16_add_mod _ _ (by omega)]
      congr 2
      · omega
      congr 1
      omega
  | case4 a b c rest ih =>
      have ha : a < 256 := h a (by simp)
      have hb : b < 256 := h b (by simp)
      have hc : c < 256 := h c (by simp)
      have h1 : a / 4 < 64 := by omega
      have h2 : a % 4 * 16 + b / 16 < 64 := by omega
      have h3 : b % 16 * 4 + c / 64 < 64 := by omega
      have h4 : c % 64 < 64 := by omega
      have ih' := ih (fun x hx => h x (by simp [hx]))
      simp only [b64Encode, b64Decode, b64Index_b64Char _ h1, b64Index_b64Char _ h2,
        b64Index_b64Char _ h3, b64Index_b64Char _ h4]
      rw [if_neg (fun hh => b64Char_ne_61 _ h3 hh.2.1),
        if_neg (fun hh => b64Char_ne_61 _ h4 hh.2), ih']
      simp only [Option.map]
      rw [mul16_add_div _ _ (by omega), mul16_add_mod _ _ (by omega),
        mul4_add_div _ _ (by omega), mul4_add_mod _ _ (by omega)]
      congr 2
      · omega
      congr 1
      · omega
      congr 1
      omega

/-- Decode a base64 `String` (the crate hands `&str` values to the engine). -/
def b64DecodeStr (s : String) : Option (List Nat) :=
  b64Decode (strBytes s)

theorem b64Encode_lt (bs : List Nat) : ∀ x ∈ b64Encode bs, x < 256 := by
  induction bs using b64Encode.induct with
  | case1 => simp [b64Encode]
  | case2 a =>
      simp only [b64Encode, List.mem_cons, List.not_mem_nil, or_false]
      rintro x (rfl | rfl | rfl | rfl) <;> first | exact b64Char_lt _ | omega
  | case3 a b =>
      simp only [b64Encode, List.mem_cons, List.not_mem_nil, or_false]
      rintro x (rfl | rfl | rfl | rfl) <;> first | exact b64Char_lt _ | omega
  | case4 a b c rest ih =>
      simp only [b64Encode, List.mem_cons]
      rintro x (rfl | rfl | rfl | rfl | hx) <;> first | exact b64Char_lt _ | exact ih x hx

theorem b64Encode_length (bs : List Nat) :
    (b64Encode bs).length = 4 * ((bs.length + 2) / 3) := by
  induction bs using b64Encode.induct with
  | case1 => simp [b64Encode]
  | case2 a => simp [b64Encode]
  | case3 a b => simp [b64Encode]
  | case4 a b c rest ih =>
      simp only [b64Encode, List.length_cons, ih]
      omega

/-! ## SHA-256 and HMAC-SHA256

`calculate_hmac` (src/encryption/text.rs, `pub mod hmac`) computes
HMAC-SHA256 through openssl (`PKey::hmac`, `Signer::new(MessageDigest::sha256)`).
The algorithms are reproduced here concretely, byte-level, per FIPS 180-4 and
RFC 2104 (block size 64, output 32 bytes). -/

/-- Truncate to a 32-bit word. -/
def w32 (n : Nat) : Nat := n % 4294967296

/-- Rotate a 32-bit word right by `n` bits. -/
def rotr32 (n x : Nat) : Nat := x / 2 ^ n + x % 2 ^ n * 2 ^ (32 - n)

def bigSigma0 (x : Nat) : Nat := rotr32 2 x ^^^ rotr32 13 x ^^^ rotr32 22 x

def bigSigma1 (x : Nat) : Nat := rotr32 6 x ^^^ rotr32 11 x ^^^ rotr32 25 x

def smallSigma0 (x : Nat) : Nat := rotr32 7 x ^^^ rotr32 18 x ^^^ x / 2 ^ 3

def smallSigma1 (x : Nat) : Nat := rotr32 17 x ^^^ rotr32 19 x ^^^ x / 2 ^ 10

def shaCh (x y z : Nat) : Nat := x &&& y ^^^ ((x ^^^ 4294967295) &&& z)

def shaMaj (x y z : Nat) : Nat := x &&& y ^^^ x &&& z ^^^ y &&& z

/-- The 64 SHA-256 round constants (FIPS 180-4, written in decimal). -/
def shaK : List Nat :=
  [1116352408, 1899447441, 3049323471, 3921009573, 961987163,
   1508970993, 2453635748, 2870763221, 3624381080, 310598401,
   607225278, 1426881987, 1925078388, 2162078206, 2614888103,
   3248222580, 3835390401, 4022224774, 264347078, 604807628,
   770255983, 1249150122, 1555081692, 1996064986, 2554220882,
   2821834349, 2952996808, 3210313671, 3336571891, 3584528711,
   113926993, 338241895, 666307205, 773529912, 1294757372,
   1396182291, 1695183700, 1986661051, 2177026350, 2456956037,
   2730485921, 2820302411, 3259730800, 3345764771, 3516065817,
   3600352804, 4094571909, 275423344, 430227734, 506948616,
   659060556, 883997877, 958139571, 1322822218, 1537002063,
   1747873779, 1955562222, 2024104815, 2227730452, 2361852424,
   2428436474, 2756734187, 3204031479, 3329325298]

/-- SHA-256 working state: the eight 32-bit hash registers. -/
structure ShaState where
  a : Nat
  b : Nat
  c : Nat
  d : Nat
  e : Nat
  f : Nat
  g : Nat
  h : Nat

/-- FIPS 180-4 initial hash value. -/
def shaInit : ShaState :=
  ⟨1779033703, 3144134277, 1013904242, 2773480762,
   1359893119, 2600822924, 528734635, 1541459225⟩

/-- One compression round; `kw` is the round constant plus message word. -/
def shaRound (s : ShaState) (kw : Nat) : ShaState :=
  let t1 := w32 (s.h + bigSigma1 s.e + shaCh s.e s.f s.g + kw)
  let t2 := w32 (bigSigma0 s.a + shaMaj s.a s.b s.c)
  ⟨w32 (t1 + t2), s.a, s.b, s.c, w32 (s.d + t1), s.e, s.f, s.g⟩

/-- Big-endian 32-bit words from bytes (groups of four). -/
def bytesToWords : List Nat → List Nat
  | b0 :: b1 :: b2 :: b3 :: rest =>
      (b0 * 2 ^ 24 + b1 * 2 ^ 16 + b2 * 2 ^ 8 + b3) :: bytesToWords rest
  | _ => []

/-- One message-schedule extension step (appends `w[t]` for `t ≥ 16`). -/
def shaExtendStep (ws : List Nat) : List Nat :=
  ws ++ [w32 (smallSigma1 (ws.getD (ws.length - 2) 0) + ws.getD (ws.length - 7) 0 +
    smallSigma0 (ws.getD (ws.length - 15) 0) + ws.getD (ws.length - 16) 0)]

/-- Iterate the extension 48 times to obtain the 64 schedule words. -/
def shaExtend : Nat → List Nat → List Nat
  | 0, ws => ws
  | n + 1, ws => shaExtend n (shaExtendStep ws)

/-- Process one 64-byte block. -/
def shaBlock (s : ShaState) (block : List Nat) : ShaState :=
  let ws := shaExtend 48 (bytesToWords block)
  let t := (shaK.zipWith (fun k w => w32 (k + w)) ws).foldl shaRound s
  ⟨w32 (s.a + t.a), w32 (s.b + t.b), w32 (s.c + t.c), w32 (s.d + t.d),
   w32 (s.e + t.e), w32 (s.f + t.f), w32 (s.g + t.g), w32 (s.h + t.h)⟩

/-- Big-endian 8-byte encoding of the bit length. -/
def toBE8 (n : Nat) : List Nat :=
  [n / 2 ^ 56 % 256, n / 2 ^ 48 % 256, n / 2 ^ 40 % 256, n / 2 ^ 32 % 256,
   n / 2 ^ 24 % 256, n / 2 ^ 16 % 256, n / 2 ^ 8 % 256, n % 256]

/-- Big-endian 4-byte encoding of a 32-bit word. -/
def toBE4 (n : Nat) : List Nat :=
  [n / 2 ^ 24 % 256, n / 2 ^ 16 % 256, n / 2 ^ 8 % 256, n % 256]

/-- SHA-256 padding: `0x80`, zeros to 56 mod 64, then the 64-bit bit length. -/
def shaPad (msg : List Nat) : List Nat :=
  msg ++ 128 :: List.replicate ((119 - msg.length % 64) % 64) 0 ++ toBE8 (msg.length * 8)

/-- Split into 64-byte blocks. -/
def toBlocks (l : List Nat) : List (List Nat) :=
  if l = [] then [] else l.take 64 :: toBlocks (l.drop 64)
termination_by l.length
decreasing_by
  simp only [List.length_drop]
  have : l.length ≠ 0 := fun hl => by simp [List.length_eq_zero.mp hl] at *
  omega

/-- SHA-256 digest (32 bytes). -/
def sha256 (msg : List Nat) : List Nat :=
  let s := (toBlocks (shaPad msg)).foldl shaBlock shaInit
  toBE4 s.a ++ toBE4 s.b ++ toBE4 s.c ++ toBE4 s.d ++
    toBE4 s.e ++ toBE4 s.f ++ toBE4 s.g ++ toBE4 s.h

/-- HMAC-SHA256 exactly as openssl computes it for `calculate_hmac(data, key)`:
block size 64, `ipad = 0x36`, `opad = 0x5c`, keys longer than 64 bytes hashed
first, then zero-padded to 64. -/
def calculate_hmac (data key : List Nat) : List Nat :=
  let key := if key.length > 64 then sha256 key else key
  let keyPadded := key ++ List.replicate (64 - key.length) 0
  let ipad := keyPadded.map fun b => b ^^^ 54
  let opad := keyPadded.map fun b => b ^^^ 92
  sha256 (opad ++ sha256 (ipad ++ data))

theorem sha256_length (msg : List Nat) : (sha256 msg).length = 32 := by
  simp [sha256, toBE4]

theorem toBE4_lt (n : Nat) : ∀ x ∈ toBE4 n, x < 256 := by
  simp only [toBE4, List.mem_cons, List.not_mem_nil, or_false]
  rintro x (rfl | rfl | rfl | rfl) <;> omega

theorem sha256_lt (msg : List Nat) : ∀ x ∈ sha256 msg, x < 256 := by
  simp only [sha256, List.mem_append]
  rintro x (((((((hx | hx) | hx) | hx) | hx) | hx) | hx) | hx) <;>
    exact toBE4_lt _ _ hx

theorem calculate_hmac_length (data key : List Nat) :
    (calculate_hmac data key).length = 32 :=
  sha256_length _

theorem calculate_hmac_lt (data key : List Nat) :
    ∀ x ∈ calculate_hmac data key, x < 256 :=
  sha256_lt _

/-- Appending a zero byte to a key of fewer than 64 bytes does not change the
HMAC: the zero-padded 64-byte keys coincide. -/
theorem calculate_hmac_key_zero_ext (data key : List Nat) (h : key.length ≤ 63) :
    calculate_hmac data (key ++ [0]) = calculate_hmac data key := by
  have h1 : ¬ (key ++ [0]).length > 64 := by simp; omega
  have h2 : ¬ key.length > 64 := by omega
  have hpad : (key ++ [0]) ++ List.replicate (64 - (key ++ [0]).length) 0 =
      key ++ List.replicate (64 - key.length) 0 := by
    have : (64 - key.length) = (64 - (key.length + 1)) + 1 := by omega
    simp only [List.append_assoc, List.length_append, List.length_singleton, this,
      List.replicate_succ, List.singleton_append]
  simp only [calculate_hmac, if_neg h1, if_neg h2, hpad]

/-! ## The block cipher interface

`encrypts`/`decrypts` call openssl's `Cipher::aes_128_cbc()` through
`openssl::symm::{encrypt, decrypt}`. The library is modelled as an interface:
encryption with a well-sized key and IV is total and emits bytes; decryption
inverts encryption when called with the same 16-byte key and 16-byte IV; and
decryption with a key that is not 16 bytes long fails (openssl rejects wrong
key lengths for AES-128). -/

structure BlockCipher where
  enc : List Nat → List Nat → List Nat → List Nat
  dec : List Nat → List Nat → List Nat → Option (List Nat)
  enc_lt : ∀ key iv msg, ∀ x ∈ enc key iv msg, x < 256
  dec_enc : ∀ key iv msg, key.length = 16 → iv.length = 16 → (∀ x ∈ msg, x < 256) →
    dec key iv (enc key iv msg) = some msg
  dec_badkey : ∀ key iv ct, key.length ≠ 16 → dec key iv ct = none

/-- A concrete cipher satisfying the interface, used to instantiate witnesses
(encryption is the identity on bytes; decryption checks the key length). -/
def toyCipher : BlockCipher where
  enc := fun _ _ msg => msg.map (· % 256)
  dec := fun key _ ct => if key.length = 16 then some ct else none
  enc_lt := by
    intro key iv msg x hx
    simp only [List.mem_map] at hx
    obtain ⟨y, _, rfl⟩ := hx
    omega
  dec_enc := by
    intro key iv msg hk _ hmsg
    simp only [if_pos hk, Option.some.injEq]
    calc msg.map (· % 256) = msg.map id := List.map_congr_left fun x hx => by
          simpa using Nat.mod_eq_of_lt (hmsg x hx)
      _ = msg := List.map_id msg
  dec_badkey := by
    intro key iv ct hk
    simp [if_neg hk]

/-! ## The authenticated cipher (src/encryption/text.rs, src/decryption/text.rs) -/

/-- The default key (`key.unwrap_or("welovenfts")`). -/
def welovenfts : List Nat := strBytes "welovenfts"

/-- The key padding loop shared by both functions: push zero bytes while the
key is shorter than 16 bytes. `decrypts` stops here (src/decryption/text.rs
lines 39-42). -/
def padKey16 (key : List Nat) : List Nat :=
  key ++ List.replicate (16 - key.length) 0

/-- `encrypts` additionally runs `padded_key.truncate(16)`
(src/encryption/text.rs line 86). -/
def normKeyEnc (key : List Nat) : List Nat :=
  (padKey16 key).take 16

/-- Whether byte offset 10 is a character boundary of the UTF-8 string with
these bytes: Rust's `&input.to_string()[..10]` (src/encryption/text.rs line
73) panics exactly when it is not (shorter than 10 bytes, or byte 10 is a
UTF-8 continuation byte). -/
def isCharBoundary10 (b : List Nat) : Bool :=
  if b.length < 10 then false
  else
    match b[10]? with
    | none => true
    | some v => decide (v < 128 ∨ 192 ≤ v)

/-- The IV string computed by `encrypts`: base64 of the first 10 plaintext
bytes under `"default"` strength, base64 of the 10 random bytes otherwise. -/
def encIV (rand input : List Nat) (strength : Option String) : List Nat :=
  if strength.getD "default" = "default" then b64Encode (input.take 10)
  else b64Encode rand

/-- Model of `encrypts(input, key, strength)` (src/encryption/text.rs lines
69-99). `C` is the AES-128-CBC implementation and `rand` the 10 bytes that
`generate_random_bytes` drew for this call. -/
def encrypts (C : BlockCipher) (rand input : List Nat)
    (key : Option (List Nat)) (strength : Option String) : RResult (Option (List Nat)) :=
  let key := key.getD welovenfts
  if isCharBoundary10 input then
    let iv := encIV rand input strength
    let paddedKey := normKeyEnc key
    let ciphertext := C.enc paddedKey iv input
    let hmac := calculate_hmac ciphertext paddedKey
    if hmac = calculate_hmac ciphertext paddedKey then
      .ok (some (b64Encode (iv ++ hmac ++ ciphertext)))
    else .ok none
  else .panic

/-- Model of `decrypts(encoded_result, key)` (src/decryption/text.rs lines
37-56). The slices `[..16]`, `[16..48]`, `[48..]` panic when the decoded
payload is shorter than 48 bytes; `String::from_utf8_lossy` is represented at
the byte level (it is the identity on the valid UTF-8 bytes a `&str`
plaintext decrypts back to). -/
def decrypts (C : BlockCipher) (encoded : List Nat)
    (key : Option (List Nat)) : RResult (Option (List Nat)) :=
  let key := key.getD welovenfts
  let paddedKey := padKey16 key
  match b64Decode encoded with
  | none => .ok none
  | some resultBytes =>
    if resultBytes.length < 48 then .panic
    else
      let iv := resultBytes.take 16
      let hmac := (resultBytes.drop 16).take 32
      let ciphertext := resultBytes.drop 48
      if calculate_hmac ciphertext paddedKey = hmac then
        match C.dec paddedKey iv ciphertext with
        | none => .ok none
        | some d => .ok (some d)
      else .ok none

/-- The payload carried by a successful `RResult`, `[]` otherwise. -/
def payloadOf : RResult (Option (List Nat)) → List Nat
  | .ok (some p) => p
  | _ => []

/-- Whether an `RResult` is a successful `Some`. -/
def isOkSome : RResult (Option (List Nat)) → Bool
  | .ok (some _) => true
  | _ => false

/-! ## Characterization lemmas for the cipher pair -/

theorem isCharBoundary10_le {b : List Nat} (h : isCharBoundary10 b = true) :
    10 ≤ b.length := by
  by_contra hlt
  simp [isCharBoundary10, if_pos (by omega : b.length < 10)] at h

theorem isCharBoundary10_of_short {b : List Nat} (h : b.length < 10) :
    isCharBoundary10 b = false := by
  simp [isCharBoundary10, if_pos h]

theorem encIV_length (rand input : List Nat) (strength : Option String)
    (h10 : 10 ≤ input.length) (hr : rand.length = 10) :
    (encIV rand input strength).length = 16 := by
  unfold encIV
  split <;> rw [b64Encode_length] <;> simp [List.length_take, hr] <;> omega

theorem encIV_lt (rand input : List Nat) (strength : Option String) :
    ∀ x ∈ encIV rand input strength, x < 256 := by
  unfold encIV
  split <;> exact b64Encode_lt _

/-- `encrypts` on a plaintext whose byte 10 is a character boundary: the
self-check always passes and the payload is `base64(IV ‖ Tag ‖ CipherText)`. -/
theorem encrypts_ok (C : BlockCipher) (rand input : List Nat) (key : Option (List Nat))
    (strength : Option String) (h : isCharBoundary10 input = true) :
    encrypts C rand input key strength =
      .ok (some (b64Encode (encIV rand input strength ++
        calculate_hmac (C.enc (normKeyEnc (key.getD welovenfts)) (encIV rand input strength) input)
          (normKeyEnc (key.getD welovenfts)) ++
        C.enc (normKeyEnc (key.getD welovenfts)) (encIV rand input strength) input))) := by
  simp [encrypts, h]

/-- `decrypts` on a well-formed `IV(16) ‖ Tag(32) ‖ CipherText` payload:
base64 round-trips, the length check passes, and the three slices are the
three components. -/
theorem decrypts_wellformed (C : BlockCipher) (key : Option (List Nat))
    (iv tag ct : List Nat) (hiv : iv.length = 16) (htag : tag.length = 32)
    (hb : ∀ x ∈ iv ++ tag ++ ct, x < 256) :
    decrypts C (b64Encode (iv ++ tag ++ ct)) key =
      if calculate_hmac ct (padKey16 (key.getD welovenfts)) = tag then
        match C.dec (padKey16 (key.getD welovenfts)) iv ct with
        | none => .ok none
        | some d => .ok (some d)
      else .ok none := by
  have hlen : (iv ++ tag ++ ct).length = 48 + ct.length := by
    simp [hiv, htag]; omega
  have htake : (iv ++ tag ++ ct).take 16 = iv := by
    rw [List.append_assoc, ← hiv, List.take_left]
  have hdrop16 : (iv ++ tag ++ ct).drop 16 = tag ++ ct := by
    rw [List.append_assoc, ← hiv, List.drop_left]
  have htag32 : ((iv ++ tag ++ ct).drop 16).take 32 = tag := by
    rw [hdrop16, ← htag, List.take_left]
  have hdrop48 : (iv ++ tag ++ ct).drop 48 = ct := by
    rw [show (48 : Nat) = 16 + 32 from rfl, ← List.drop_drop, hdrop16, ← htag,
      List.drop_left]
  simp only [decrypts, b64Decode_b64Encode _ hb, hlen]
  rw [if_neg (by omega), htake, htag32, hdrop48]

/-- Single-bit tamper of byte `p`, bit `k`. -/
def flipBit (bs : List Nat) (p k : Nat) : List Nat :=
  bs.set p (bs.getD p 0 ^^^ 2 ^ k)

theorem xor_two_pow_ne (x k : Nat) : x ^^^ 2 ^ k ≠ x := by
  intro h
  have h2 : x ^^^ (x ^^^ 2 ^ k) = x ^^^ x := by rw [h]
  rw [← Nat.xor_assoc, Nat.xor_self, Nat.zero_xor] at h2
  exact pow_ne_zero k (by norm_num) h2

theorem getD_set_self (l : List Nat) (n a : Nat) (h : n < l.length) :
    (l.set n a).getD n 0 = a := by
  rw [List.getD_eq_getElem?_getD, List.getElem?_set_eq h]
  rfl

/-- The inputs of the concrete counterexample to the unrestricted cipher
round trip: a 17-byte key whose 17th byte is zero (`encrypts` truncates it to
16 bytes, `decrypts` does not), and an 11-byte plaintext whose byte 10 is a
UTF-8 continuation byte (the string `a` followed by five `é`). -/
def cexLongKey : List Nat := strBytes "aaaaaaaaaaaaaaaa" ++ [0]

def cexPlain : List Nat := strBytes "aaaaaaaaaa"

def cexPlainMultibyte : List Nat := [97, 195, 169, 195, 169, 195, 169, 195, 169, 195, 169]

/-- C1: the round trip as claimed fails on the code. With the 17-byte key
`cexLongKey` the payload is produced but `decrypts` returns `None`: the
zero-padded HMAC keys still coincide (the extra byte is zero), so the tag
matches, but AES is then invoked with a 17-byte key and fails. With the
11-byte plaintext `cexPlainMultibyte` (`len(P) ≥ 10`), `encrypts` panics on
the string slice `&input[..10]`. -/
theorem C1_counterexample :
    isOkSome (encrypts toyCipher (List.replicate 10 0) cexPlain (some cexLongKey)
      (some "default")) = true
    ∧ decrypts toyCipher (payloadOf (encrypts toyCipher (List.replicate 10 0) cexPlain
        (some cexLongKey) (some "default"))) (some cexLongKey) = .ok none
    ∧ encrypts toyCipher (List.replicate 10 0) cexPlainMultibyte (some (strBytes "key"))
        (some "default") = .panic := by
  have hb : isCharBoundary10 cexPlain = true := by decide
  have henc := encrypts_ok toyCipher (List.replicate 10 0) cexPlain (some cexLongKey)
    (some "default") hb
  refine ⟨by rw [henc]; rfl, ?_, by decide⟩
  rw [henc]
  show decrypts toyCipher (b64Encode _) (some cexLongKey) = .ok none
  rw [decrypts_wellformed toyCipher (some cexLongKey) _ _ _
    (encIV_length _ _ _ (by decide) (by simp)) (calculate_hmac_length _ _) ?hb]
  case hb =>
    intro x hx
    simp only [List.append_assoc, List.mem_append] at hx
    rcases hx with hx | hx | hx
    · exact encIV_lt _ _ _ x hx
    · exact calculate_hmac_lt _ _ x hx
    · exact toyCipher.enc_lt _ _ _ x hx
  have hpad : padKey16 cexLongKey = cexLongKey := by decide
  have hnorm : normKeyEnc cexLongKey = strBytes "aaaaaaaaaaaaaaaa" := by decide
  rw [Option.getD_some, hpad, hnorm]
  rw [show cexLongKey = strBytes "aaaaaaaaaaaaaaaa" ++ [0] from rfl,
    calculate_hmac_key_zero_ext _ _ (by decide)]
  rw [if_pos rfl]
  have : toyCipher.dec (strBytes "aaaaaaaaaaaaaaaa" ++ [0])
      (encIV (List.replicate 10 0) cexPlain (some "default"))
      (toyCipher.enc (strBytes "aaaaaaaaaaaaaaaa")
        (encIV (List.replicate 10 0) cexPlain (some "default")) cexPlain) = none :=
    toyCipher.dec_badkey _ _ _ (by decide)
  rw [this]

/-- C1 (amended): cipher round trip for every plaintext of at least 10 bytes
whose byte 10 begins a character (always true for ASCII plaintext), every key
of at most 16 bytes (including the default key when none is supplied), and
every strength selector: decrypting the payload produced by `encrypts` with
the same key returns the plaintext. -/
theorem C1_cipher_round_trip (C : BlockCipher) (rand input : List Nat)
    (key : Option (List Nat)) (strength : Option String)
    (hkey : (key.getD welovenfts).length ≤ 16)
    (hinput : ∀ x ∈ input, x < 256)
    (hb : isCharBoundary10 input = true)
    (hrand : rand.length = 10) :
    ∃ payload, encrypts C rand input key strength = .ok (some payload)
      ∧ decrypts C payload key = .ok (some input) := by
  have h10 : 10 ≤ input.length := isCharBoundary10_le hb
  have hpadlen : (padKey16 (key.getD welovenfts)).length = 16 := by
    simp only [padKey16, List.length_append, List.length_replicate]
    omega
  have hnorm : normKeyEnc (key.getD welovenfts) = padKey16 (key.getD welovenfts) := by
    unfold normKeyEnc
    exact List.take_of_length_le (le_of_eq hpadlen)
  refine ⟨_, encrypts_ok C rand input key strength hb, ?_⟩
  rw [decrypts_wellformed C key _ _ _ (encIV_length _ _ _ h10 hrand)
    (calculate_hmac_length _ _) ?hb]
  case hb =>
    intro x hx
    simp only [List.append_assoc, List.mem_append] at hx
    rcases hx with hx | hx | hx
    · exact encIV_lt _ _ _ x hx
    · exact calculate_hmac_lt _ _ x hx
    · exact C.enc_lt _ _ _ x hx
  rw [hnorm, if_pos rfl,
    C.dec_enc _ _ _ hpadlen (encIV_length _ _ _ h10 hrand) hinput]

/-- Witness for `C1_cipher_round_trip` at a concrete ASCII plaintext, the
15-byte key of the crate's own tests, and the `"advanced"` strength. -/
theorem C1_cipher_round_trip_witness :
    ∃ payload, encrypts toyCipher (List.replicate 10 7) (strBytes "ThisIsJustaTestString")
        (some (strBytes "your_secret_key")) (some "advanced") = .ok (some payload)
      ∧ decrypts toyCipher payload (some (strBytes "your_secret_key")) =
          .ok (some (strBytes "ThisIsJustaTestString")) :=
  C1_cipher_round_trip toyCipher (List.replicate 10 7) (strBytes "ThisIsJustaTestString")
    (some (strBytes "your_secret_key")) (some "advanced")
    (by decide) (by decide) (by decide) (by decide)

/-- C4: the code panics instead of failing cleanly — for every input shorter
than 10 bytes, every key and every strength, `encrypts` aborts on the
out-of-range string slice `&input[..10]`. -/
theorem C4_short_input_panics (C : BlockCipher) (rand input : List Nat)
    (key : Option (List Nat)) (strength : Option String)
    (h : input.length < 10) :
    encrypts C rand input key strength = .panic := by
  simp [encrypts, isCharBoundary10_of_short h]

/-- Witness for `C4_short_input_panics` on the 5-byte input `"short"`. -/
theorem C4_short_input_panics_witness :
    encrypts toyCipher (List.replicate 10 0) (strBytes "short")
      (some (strBytes "your_secret_key")) none = .panic :=
  C4_short_input_panics toyCipher (List.replicate 10 0) (strBytes "short")
    (some (strBytes "your_secret_key")) none (by decide)

/-- C5: the code panics instead of rejecting — for every input whose base64
decoding succeeds with fewer than 48 bytes, and every key, `decrypts` aborts
on the out-of-range slices `[..16]`/`[16..48]`/`[48..]`. -/
theorem C5_short_payload_panics (C : BlockCipher) (encoded bytes : List Nat)
    (key : Option (List Nat))
    (hdec : b64Decode encoded = some bytes) (hlen : bytes.length < 48) :
    decrypts C encoded key = .panic := by
  simp [decrypts, hdec, if_pos hlen]

/-- Witness for `C5_short_payload_panics` on the empty payload string, which
decodes to zero bytes. -/
theorem C5_short_payload_panics_witness :
    decrypts toyCipher [] (some (strBytes "welovenfts")) = .panic :=
  C5_short_payload_panics toyCipher [] [] (some (strBytes "welovenfts")) (by decide)
    (by decide)

/-- C6: the two key normalizations differ — `padKey16` (the `decrypts`
normalization, src/decryption/text.rs lines 39-42) keeps all 17 bytes of a
17-byte key, while `normKeyEnc` (the `encrypts` normalization,
src/encryption/text.rs lines 82-86) truncates it to 16. -/
theorem C6_counterexample :
    padKey16 (List.replicate 17 1) ≠ normKeyEnc (List.replicate 17 1) := by
  decide

/-- C6 (amended): the normalizations agree exactly on keys of at most 16
bytes (both zero-pad to 16); on longer keys `encrypts` truncates to the first
16 bytes while `decrypts` keeps the key unchanged. -/
theorem C6_key_normalization (key : List Nat) :
    (key.length ≤ 16 → padKey16 key = normKeyEnc key)
    ∧ (16 < key.length → padKey16 key = key ∧ normKeyEnc key = key.take 16) := by
  constructor
  · intro h
    unfold normKeyEnc
    rw [List.take_of_length_le]
    simp only [padKey16, List.length_append, List.length_replicate]
    omega
  · intro h
    have hz : 16 - key.length = 0 := by omega
    have hpad : padKey16 key = key := by
      simp [padKey16, hz]
    refine ⟨hpad, ?_⟩
    rw [normKeyEnc, hpad]

/-- Witness for `C6_key_normalization` at an 8-byte and a 20-byte key. -/
theorem C6_key_normalization_witness :
    padKey16 (List.replicate 8 2) = normKeyEnc (List.replicate 8 2)
    ∧ padKey16 (List.replicate 20 3) = List.replicate 20 3
    ∧ normKeyEnc (List.replicate 20 3) = (List.replicate 20 3).take 16 :=
  ⟨(C6_key_normalization (List.replicate 8 2)).1 (by decide),
   (C6_key_normalization (List.replicate 20 3)).2 (by decide)⟩

/-- C3: tamper detection. For a valid payload `IV ‖ Tag ‖ CipherText`
(16-byte IV, tag equal to the HMAC of the ciphertext under the working key),
flipping bit `k` of byte `p`:

* in the Tag region (`16 ≤ p < 48`) always makes `decrypts` return `None`;
* in the CipherText region (`48 ≤ p`) makes `decrypts` return `None` whenever
  the HMAC of the tampered ciphertext differs from the stored tag — the
  standard tamper-sensitivity property of HMAC-SHA256, which cannot be
  discharged for a concrete hash and so appears as the hypothesis `hsens`
  (it is vacuous for tag-region flips);

and in either case the result is the same for every block-cipher
implementation: on tag mismatch `decrypts` fails without attempting
block-cipher decryption. -/
theorem C3_tamper_detection (C C2 : BlockCipher) (key : Option (List Nat))
    (iv tag ct : List Nat) (p k : Nat)
    (hiv : iv.length = 16)
    (htag : tag = calculate_hmac ct (padKey16 (key.getD welovenfts)))
    (hivb : ∀ x ∈ iv, x < 256) (hctb : ∀ x ∈ ct, x < 256)
    (hp16 : 16 ≤ p) (hplen : p < 48 + ct.length) (hk : k < 8)
    (hsens : 48 ≤ p →
      calculate_hmac (ct.set (p - 48) (ct.getD (p - 48) 0 ^^^ 2 ^ k))
          (padKey16 (key.getD welovenfts)) ≠
        calculate_hmac ct (padKey16 (key.getD welovenfts))) :
    decrypts C (b64Encode (flipBit (iv ++ tag ++ ct) p k)) key = .ok none
    ∧ decrypts C (b64Encode (flipBit (iv ++ tag ++ ct) p k)) key =
        decrypts C2 (b64Encode (flipBit (iv ++ tag ++ ct) p k)) key := by
  subst htag
  have htaglen : (calculate_hmac ct (padKey16 (key.getD welovenfts))).length = 32 :=
    calculate_hmac_length _ _
  have htagb : ∀ x ∈ calculate_hmac ct (padKey16 (key.getD welovenfts)), x < 256 :=
    calculate_hmac_lt _ _
  have hset : ∀ (l : List Nat) (n a : Nat), (∀ x ∈ l, x < 256) → a < 256 →
      ∀ x ∈ l.set n a, x < 256 := by
    intro l n a hl ha x hx
    rcases List.mem_or_eq_of_mem_set hx with hx | rfl
    · exact hl x hx
    · exact ha
  have hflip_lt : ∀ (l : List Nat) (n : Nat), (∀ x ∈ l, x < 256) →
      l.getD n 0 ^^^ 2 ^ k < 256 := by
    intro l n hl
    have h1 : l.getD n 0 < 256 := by
      by_cases hn : n < l.length
      · exact hl _ (by rw [List.getD_eq_getElem l 0 hn]; exact List.getElem_mem hn)
      · rw [List.getD_eq_default _ _ (by omega)]; norm_num
    have h2 : (2 : Nat) ^ k < 256 := by
      calc (2 : Nat) ^ k < 2 ^ 8 := Nat.pow_lt_pow_right (by norm_num) hk
        _ = 256 := by norm_num
    exact Nat.xor_lt_two_pow (n := 8) h1 h2
  rcases lt_or_le p 48 with hpt | hpc
  · -- flip inside the Tag region
    set T := calculate_hmac ct (padKey16 (key.getD welovenfts)) with hT
    have hdecomp : flipBit (iv ++ T ++ ct) p k =
        iv ++ T.set (p - 16) (T.getD (p - 16) 0 ^^^ 2 ^ k) ++ ct := by
      rw [flipBit, List.append_assoc, List.set_append_right _ _ (by omega),
        List.getD_append_right iv (T ++ ct) 0 p (by omega), hiv,
        List.getD_append T ct 0 (p - 16) (by omega),
        List.set_append_left _ _ (by omega), ← List.append_assoc]
    rw [hdecomp]
    have hblt : ∀ x ∈ iv ++ T.set (p - 16) (T.getD (p - 16) 0 ^^^ 2 ^ k) ++ ct,
        x < 256 := by
      intro x hx
      simp only [List.append_assoc, List.mem_append] at hx
      rcases hx with hx | hx | hx
      · exact hivb x hx
      · exact hset _ _ _ htagb (hflip_lt _ _ htagb) x hx
      · exact hctb x hx
    have hne : T ≠ T.set (p - 16) (T.getD (p - 16) 0 ^^^ 2 ^ k) := by
      intro he
      have h1 := getD_set_self T (p - 16) (T.getD (p - 16) 0 ^^^ 2 ^ k) (by omega)
      rw [← he] at h1
      exact xor_two_pow_ne _ _ h1.symm
    rw [decrypts_wellformed C key _ _ _ hiv (by rw [List.length_set, htaglen]) hblt,
      decrypts_wellformed C2 key _ _ _ hiv (by rw [List.length_set, htaglen]) hblt,
      if_neg hne, if_neg hne]
    exact ⟨rfl, rfl⟩
  · -- flip inside the CipherText region
    set T := calculate_hmac ct (padKey16 (key.getD welovenfts)) with hT
    have hlen48 : (iv ++ T).length = 48 := by
      simp only [List.length_append, hiv, htaglen]
    have hdecomp : flipBit (iv ++ T ++ ct) p k =
        iv ++ T ++ ct.set (p - 48) (ct.getD (p - 48) 0 ^^^ 2 ^ k) := by
      rw [flipBit, List.set_append_right _ _ (by omega),
        List.getD_append_right (iv ++ T) ct 0 p (by omega), hlen48]
    rw [hdecomp]
    have hblt : ∀ x ∈ iv ++ T ++ ct.set (p - 48) (ct.getD (p - 48) 0 ^^^ 2 ^ k),
        x < 256 := by
      intro x hx
      simp only [List.append_assoc, List.mem_append] at hx
      rcases hx with hx | hx | hx
      · exact hivb x hx
      · exact htagb x hx
      · exact hset _ _ _ hctb (hflip_lt _ _ hctb) x hx
    have hne : calculate_hmac (ct.set (p - 48) (ct.getD (p - 48) 0 ^^^ 2 ^ k))
        (padKey16 (key.getD welovenfts)) ≠ T := hsens hpc
    rw [decrypts_wellformed C key _ _ _ hiv htaglen hblt,
      decrypts_wellformed C2 key _ _ _ hiv htaglen hblt, if_neg hne, if_neg hne]
    exact ⟨rfl, rfl⟩

/-- Witness for `C3_tamper_detection`: a concrete valid payload under the
default key, with bit 0 of byte 16 (the first Tag byte) flipped. -/
theorem C3_tamper_detection_witness :
    decrypts toyCipher (b64Encode (flipBit (b64Encode (List.replicate 10 0) ++
        calculate_hmac [1, 2, 3] (padKey16 welovenfts) ++ [1, 2, 3]) 16 0)) none = .ok none
    ∧ decrypts toyCipher (b64Encode (flipBit (b64Encode (List.replicate 10 0) ++
        calculate_hmac [1, 2, 3] (padKey16 welovenfts) ++ [1, 2, 3]) 16 0)) none =
      decrypts toyCipher (b64Encode (flipBit (b64Encode (List.replicate 10 0) ++
        calculate_hmac [1, 2, 3] (padKey16 welovenfts) ++ [1, 2, 3]) 16 0)) none :=
  C3_tamper_detection toyCipher toyCipher none (b64Encode (List.replicate 10 0))
    (calculate_hmac [1, 2, 3] (padKey16 welovenfts)) [1, 2, 3] 16 0
    (by decide) rfl (by decide) (by decide) (by decide) (by decide) (by decide)
    (fun h => absurd h (by decide))

/-! ## Character/color table

`lib.rs` declares `pub mod char_mappings`, whose source file is not part of
the repository snapshot; only its interface (`get_color`, `numbers_to_letter`)
and its contract are known. -/

/-- The 65-symbol alphabet, in the order of the crate's own test
(`valid_characters` in lib.rs). -/
def tableAlphabet : List Char :=
  "abcdefghijklmnopqrstuvwxyzABCDEFGHIJKLMNOPQRSTUVWXYZ0123456789+/=".data

/-- Modelled from the spec: `color_of` of the missing `char_mappings` module
(`get_color(char) -> Option<(u8, u8, u8)>`) is defined for exactly the
65-symbol alphabet and maps distinct symbols to distinct RGB triples; the
concrete triples are the table's private data, so the model assigns symbol
number `i` the triple `(i+1, i+1, i+1)`. -/
def get_color (c : Char) : Option (Nat × Nat × Nat) :=
  (tableAlphabet.indexOf? c).map fun i => (i + 1, i + 1, i + 1)

/-- Modelled from the spec: `char_of` of the missing `char_mappings` module
(`numbers_to_letter(r, g, b) -> Option<char>`) is the exact inverse of
`get_color`: colors outside the table's range map to `None`. -/
def numbers_to_letter (r g b : Nat) : Option Char :=
  if r = g ∧ g = b ∧ 1 ≤ r ∧ r ≤ 65 then tableAlphabet[r - 1]? else none

theorem table_bijection :
    ∀ c ∈ tableAlphabet,
      (get_color c).bind (fun t => numbers_to_letter t.1 t.2.1 t.2.2) = some c := by
  decide

/-! ## Rasters and the raster codec interface -/

/-- An RGBA pixel (`image::Rgba([r, g, b, a])`). -/
structure Pix where
  r : Nat
  g : Nat
  b : Nat
  a : Nat
deriving DecidableEq

/-- An RGBA raster (`image::RgbaImage`), as its dimensions and rows of
pixels. -/
structure Raster where
  width : Nat
  height : Nat
  rows : List (List Pix)
deriving DecidableEq

/-- Pixel at column `x`, row `y` (`get_pixel(x, y)`); the model is only ever
read in bounds. -/
def getPix (img : Raster) (x y : Nat) : Pix :=
  ((img.rows.getD y []).getD x ⟨0, 0, 0, 0⟩)

/-- A fresh `width × height` buffer whose pixel `(x, y)` is `f x y`; models
`ImageBuffer::new` followed by a per-pixel `put_pixel` loop. -/
def buildRaster (w h : Nat) (f : Nat → Nat → Pix) : Raster :=
  ⟨w, h, (List.range h).map fun y => (List.range w).map fun x => f x y⟩

theorem getPix_buildRaster (w h : Nat) (f : Nat → Nat → Pix) (x y : Nat)
    (hx : x < w) (hy : y < h) : getPix (buildRaster w h f) x y = f x y := by
  unfold getPix buildRaster
  dsimp only
  have hrow : (List.map (fun y => List.map (fun x => f x y) (List.range w))
        (List.range h)).getD y [] = List.map (fun x => f x y) (List.range w) := by
    rw [List.getD_eq_getElem?_getD, List.getElem?_map, List.getElem?_range hy]
    rfl
  rw [hrow, List.getD_eq_getElem?_getD, List.getElem?_map, List.getElem?_range hx]
  rfl

def Pix.toTuple (p : Pix) : Nat × Nat × Nat × Nat := (p.r, p.g, p.b, p.a)

def Pix.ofTuple (t : Nat × Nat × Nat × Nat) : Pix := ⟨t.1, t.2.1, t.2.2.1, t.2.2.2⟩

instance : Encodable Pix :=
  Encodable.ofLeftInverse Pix.toTuple Pix.ofTuple fun p => rfl

def Raster.toTuple (i : Raster) : Nat × Nat × List (List Pix) :=
  (i.width, i.height, i.rows)

def Raster.ofTuple (t : Nat × Nat × List (List Pix)) : Raster := ⟨t.1, t.2.1, t.2.2⟩

instance : Encodable Raster :=
  Encodable.ofLeftInverse Raster.toTuple Raster.ofTuple fun i => rfl

/-- The raster image codec of the `image` crate (PNG encode via `PngEncoder`,
decode via `ImageReader`/`load_from_memory`), plus its two remaining
operations used by the crate. The law fields record what the library
guarantees: PNG is lossless (decoding an encoding returns the raster),
encoding an image with at least one pixel into a memory buffer succeeds,
zero-dimension images are unrepresentable in PNG and fail to encode, empty
input fails to decode, and decoders emit bytes. `resize` (`Nearest` filter)
and the floating-point `Rgba::blend` used by `imageops::overlay` carry no
laws — no claim depends on their pixel arithmetic. -/
structure ImgCodec where
  enc : Raster → Option (List Nat)
  dec : List Nat → Option Raster
  resize : Raster → Nat → Nat → Raster
  blend : Pix → Pix → Pix
  dec_enc : ∀ img bs, enc img = some bs → dec bs = some img
  enc_bytes : ∀ img bs, enc img = some bs → ∀ x ∈ bs, x < 256
  enc_some : ∀ img, 1 ≤ img.width → 1 ≤ img.height → (enc img).isSome
  enc_zero : ∀ img, img.width = 0 ∨ img.height = 0 → enc img = none
  dec_nil : dec [] = none

/-- Serialization of the concrete witness codec: a `0` byte followed by the
base-256 digits of the raster's `Encodable` code. -/
def toyEnc (img : Raster) : Option (List Nat) :=
  if 1 ≤ img.width ∧ 1 ≤ img.height then
    some (0 :: Nat.digits 256 (Encodable.encode img))
  else none

def toyDec (bs : List Nat) : Option Raster :=
  match bs with
  | 0 :: rest =>
      (Encodable.decode (Nat.ofDigits 256 rest)).bind fun img =>
        if 1 ≤ img.width ∧ 1 ≤ img.height then some img else none
  | _ => none

theorem toyDec_toyEnc (img : Raster) (bs : List Nat) (h : toyEnc img = some bs) :
    toyDec bs = some img := by
  unfold toyEnc at h
  split at h
  · rename_i hdim
    injection h with h
    subst h
    show (Encodable.decode (Nat.ofDigits 256 (Nat.digits 256 (Encodable.encode img)))).bind
        (fun img => if 1 ≤ img.width ∧ 1 ≤ img.height then some img else none) = some img
    rw [Nat.ofDigits_digits, Encodable.encodek]
    simp [hdim]
  · exact absurd h (by simp)

/-- A concrete codec satisfying the interface, used to instantiate
witnesses. -/
def toyCodec : ImgCodec where
  enc := toyEnc
  dec := toyDec
  resize img _ _ := img
  blend _ top := top
  dec_enc := toyDec_toyEnc
  enc_bytes := by
    intro img bs h
    unfold toyEnc at h
    split at h
    · injection h with h
      subst h
      intro x hx
      rcases List.mem_cons.mp hx with rfl | hx
      · omega
      · exact Nat.digits_lt_base (by norm_num) hx
    · exact absurd h (by simp)
  enc_some := by
    intro img h1 h2
    unfold toyEnc
    simp [if_pos (And.intro h1 h2)]
  enc_zero := by
    intro img h
    unfold toyEnc
    rw [if_neg]
    omega
  dec_nil := rfl

/-! ## Steganographic image encoder (src/encryption/images.rs) -/

/-- Apply `f` to every pixel (`image.pixels_mut()` loop). -/
def mapPixels (f : Pix → Pix) (img : Raster) : Raster :=
  ⟨img.width, img.height, img.rows.map (List.map f)⟩

/-- Whether some pixel satisfies `p` (`image.pixels()` scan). -/
def anyPixel (p : Pix → Bool) (img : Raster) : Bool :=
  img.rows.any fun row => row.any p

/-- Model of `adjust_alpha(image, custom_opacity)` (src/encryption/images.rs
lines 88-106): first rewrite every fully-transparent pixel to the requested
alpha; then scan for a remaining fully-transparent pixel; if none remains,
force every pixel to the requested alpha. -/
def adjust_alpha (img : Raster) (customOpacity : Nat) : Raster :=
  let img1 := mapPixels
    (fun px => if px.a = 0 then ⟨px.r, px.g, px.b, customOpacity⟩ else px) img
  let foundFullyTransparent := anyPixel (fun px => px.a == 0) img1
  if foundFullyTransparent then img1
  else mapPixels (fun px => ⟨px.r, px.g, px.b, customOpacity⟩) img1

/-- One decorative channel: `(base as i32 - (y as i32 + bias as i32)).abs().min(255)`. -/
def decorChannel (c y bias : Nat) : Nat :=
  min ((c : Int) - ((y : Int) + (bias : Int))).natAbs 255

/-- The pixel the fill loop writes at row `y`: the exact table color on
row 0, the biased decorative color below. -/
def fillColor (color : Nat × Nat × Nat) (y r g b : Nat) : Pix :=
  let red := if y = 0 then color.1 else decorChannel color.1 y r
  let green := if y = 0 then color.2.1 else decorChannel color.2.1 y g
  let blue := if y = 0 then color.2.2 else decorChannel color.2.2 y b
  ⟨red, green, blue, 255⟩

/-- UTF-8 encoded length of a character (how many bytes it occupies in a
Rust `&str`). -/
def utf8Len (c : Char) : Nat :=
  if c.toNat < 128 then 1
  else if c.toNat < 2048 then 2
  else if c.toNat < 65536 then 3
  else 4

/-- `ciphertext.len()` of the Rust string: its BYTE length, not its character
count. `create_img` uses this value as the canvas width and height
(src/encryption/images.rs line 114). -/
def byteLen (ciphertext : List Char) : Nat :=
  (ciphertext.map utf8Len).sum

/-- Whether the byte slice `&ciphertext[..width - 1]` of the transposition
layer (src/encryption/images.rs line 119, evaluated only for a non-empty
ciphertext) panics: byte `width - 1` is a character boundary exactly when the
final character is a single byte, so the slice panics exactly when the final
character is multi-byte. -/
def sliceLastBytePanics (ciphertext : List Char) : Bool :=
  match ciphertext.getLast? with
  | some last => utf8Len last != 1
  | none => false

/-- The transposition layer: `last.to_string() + &ciphertext[..width - 1]`.
This is its value when the byte slice does not panic (`create_img` guards the
panic with `sliceLastBytePanics`): dropping the final byte of a string whose
final character is a single byte drops exactly the final character, whatever
the characters before it. -/
def shiftedCiphertext (ciphertext : List Char) : List Char :=
  match ciphertext.getLast? with
  | some last => last :: ciphertext.take (ciphertext.length - 1)
  | none => ciphertext

/-- The first canvas of `create_img`: a `byteLen × byteLen` buffer whose
column `x` carries `get_color(shifted_ciphertext.chars().nth(x)
.unwrap_or('a')).unwrap_or(black)` (columns beyond the character count fall
back to `'a'`). -/
def fillImage (ciphertext : List Char) (r g b : Nat) : Raster :=
  let width := byteLen ciphertext
  buildRaster width width fun x y =>
    let c := (shiftedCiphertext ciphertext).getD x 'a'
    let color := (get_color c).getD (0, 0, 0)
    fillColor color y r g b

def isWhite (p : Pix) : Bool :=
  p.r == 255 && p.g == 255 && p.b == 255

/-- Rows `y ≠ 0` containing at least one pure-white pixel. -/
def whiteRowCount (img : Raster) : Nat :=
  ((List.range img.height).filter fun y =>
    ((List.range img.width).any fun x => isWhite (getPix img x y)) && y != 0).length

/-- The running `row_shift` counter of the diffusion loop at the moment row
`y` is written: it is incremented at each `y' ≤ y` with `y' % offset == 0`
— i.e. at `0, offset, 2*offset, …` — so its value is `y / offset + 1`. -/
def rowShiftAt (offset y : Nat) : Nat := y / offset + 1

/-- The diffusion pass of `create_img` (lines 160-176): output row `y` copies
input row `y - row_shift` when `y ≥ row_shift && y != 0`, and input row `y`
unchanged otherwise (in particular row 0 is always copied unchanged). -/
def diffuse (img : Raster) (offset : Nat) : Raster :=
  buildRaster img.width img.height fun x y =>
    if rowShiftAt offset y ≤ y ∧ y ≠ 0 then getPix img x (y - rowShiftAt offset y)
    else getPix img x y

/-- `imageops::flip_vertical`. -/
def flipVertical (img : Raster) : Raster :=
  buildRaster img.width img.height fun x y => getPix img x (img.height - 1 - y)

/-- `imageops::rotate90` (clockwise). -/
def rotate90 (img : Raster) : Raster :=
  buildRaster img.height img.width fun x y => getPix img y (img.height - 1 - x)

/-- `imageops::rotate270`. -/
def rotate270 (img : Raster) : Raster :=
  buildRaster img.height img.width fun x y => getPix img (img.width - 1 - y) x

/-- The `match style` arms of `create_img` (lines 177-191). -/
def applyStyle (style : String) (img : Raster) : Raster :=
  if style = "v" then rotate90 img
  else if style = "v2" then flipVertical (rotate270 img)
  else if style = "h" then img
  else if style = "h2" then flipVertical img
  else img

/-- Wrapping `u32` subtraction (release-profile semantics of
`width / 2 - center_w / 2`, which underflows for canvases narrower than the
watermark). -/
def u32sub (a b : Nat) : Nat :=
  (a + 4294967296 - b % 4294967296) % 4294967296

/-- `imageops::overlay(bottom, top, ox, oy)`: blend `top` over the
overlapping region, leave the rest of `bottom` unchanged (out-of-range
offsets clip to nothing). -/
def overlayImg (blend : Pix → Pix → Pix) (bottom top : Raster) (ox oy : Nat) : Raster :=
  buildRaster bottom.width bottom.height fun x y =>
    if ox ≤ x ∧ x < ox + top.width ∧ oy ≤ y ∧ y < oy + top.height then
      blend (getPix bottom x y) (getPix top (x - ox) (y - oy))
    else getPix bottom x y

/-- The three built-in watermark asset strings (base64-encoded PNG literals
in the source; external collaborator data per the spec, so their contents
stay abstract). -/
structure Builtins where
  bitcoin : String
  ethereum : String
  cardano : String

/-- Model of `load_watermark(watermark, alpha, width, height)`
(src/encryption/images.rs lines 53-86): a base64-decodable `watermark` string
is treated as a caller-supplied raster and requires `alpha`, `width` and
`height`; otherwise the name selects a built-in asset string (`""` for
`"empty"` and unknown names), which is decoded as a PNG. -/
def load_watermark (codec : ImgCodec) (assets : Builtins) (watermark : String)
    (alpha : Option Nat) (width height : Option Nat) : Option Raster :=
  let decoded := b64DecodeStr watermark
  if decoded.isSome then
    match alpha, width, height with
    | some _, some w, some h =>
        match decoded.bind codec.dec with
        | some img => some (codec.resize img w h)
        | none => none
    | _, _, _ => none
  else
    let asset : String :=
      match watermark with
      | "empty" => ""
      | "bitcoin" => assets.bitcoin
      | "ethereum" => assets.ethereum
      | "cardano" => assets.cardano
      | _ => ""
    (b64DecodeStr asset).bind codec.dec

/-- Model of `create_img(ciphertext, style, watermark, r, g, b, a, w, h)`
(src/encryption/images.rs lines 109-222). The canvas side (`createCanvas`) is
the fill and diffusion passes; `create_img` itself first evaluates the
transposition byte slice, which panics when the final ciphertext character is
multi-byte. -/
def createCanvas (ciphertext : List Char) (r g b : Nat) : Raster :=
  let img := fillImage ciphertext r g b
  let rowCount := whiteRowCount img
  let offset := if rowCount > 10 then byteLen ciphertext / rowCount else 1
  diffuse img offset

def create_img (codec : ImgCodec) (assets : Builtins) (ciphertext : List Char)
    (style watermark : String) (r g b : Option Nat) (a : Option Nat)
    (w h : Option Nat) : RResult (Option (List Nat)) :=
  let r := r.getD 100
  let g := g.getD 134
  let b := b.getD 131
  let width := byteLen ciphertext
  if sliceLastBytePanics ciphertext then .panic
  else
    let styled := applyStyle style (createCanvas ciphertext r g b)
    let params : Option (Nat × Nat × Nat) :=
      if (b64DecodeStr watermark).isSome then
        match a, w, h with
        | some a2, some w2, some h2 => some (a2, w2, h2)
        | _, _, _ => none
      else some (0, 32, 32)
    .ok (match params with
      | none => none
      | some (alpha, centerW, centerH) =>
          let final :=
            match load_watermark codec assets watermark (some alpha) (some centerW)
              (some centerH) with
            | some wmImg =>
                let nw := u32sub (width / 2) (centerW / 2)
                let nh := u32sub (width / 2) (centerH / 2)
                overlayImg codec.blend styled (adjust_alpha wmImg alpha) nw nh
            | none => styled
          match codec.enc final with
          | none => none
          | some buf => some (b64Encode buf))

/-! ## Steganographic image decoder (src/decryption/images.rs) -/

/-- Model of `decode_image_and_extract_text(encoded_image)`
(src/decryption/images.rs lines 26-46): base64-decode (clean `None` on
failure via `.ok()?`); decode the raster (`.decode().unwrap()` — panic on
failure); collect `numbers_to_letter` hits across row 0 (`extractRow0`);
`remove(0)` the first extracted character (panic when none was extracted) and
push it at the end. -/
def extractRow0 (img : Raster) : List Char :=
  (List.range img.width).filterMap fun x =>
    let p := getPix img x 0
    numbers_to_letter p.r p.g p.b

def decode_image_and_extract_text (codec : ImgCodec) (encodedImage : List Nat) :
    RResult (Option (List Char)) :=
  match b64Decode encodedImage with
  | none => .ok none
  | some imageData =>
      match codec.dec imageData with
      | none => .panic
      | some img =>
          match extractRow0 img with
          | [] => .panic
          | c :: rest => .ok (some (rest ++ [c]))

/-! ## Claims about the image layer -/

/-- C7: the claimed alpha rule fails on the code. This raster contains a
fully-transparent pixel, so the claim says the second pixel (alpha 128) is
left unchanged; `adjust_alpha` with requested alpha 50 nevertheless rewrites
it to 50, because the transparency scan runs only after the first rewrite
pass has already eliminated every zero alpha. -/
theorem C7_counterexample :
    anyPixel (fun px => px.a == 0) ⟨2, 1, [[⟨0, 0, 0, 0⟩, ⟨0, 0, 0, 128⟩]]⟩ = true
    ∧ (getPix ⟨2, 1, [[⟨0, 0, 0, 0⟩, ⟨0, 0, 0, 128⟩]]⟩ 1 0).a = 128
    ∧ (getPix (adjust_alpha ⟨2, 1, [[⟨0, 0, 0, 0⟩, ⟨0, 0, 0, 128⟩]]⟩ 50) 1 0).a = 50
    ∧ (50 : Nat) ≠ 128 := by
  decide

/-- C7 (amended): for a nonzero requested alpha, `adjust_alpha` forces every
pixel to the requested alpha regardless of transparency; for requested alpha
zero it behaves as the claim states — the raster is unchanged when it
contains a fully-transparent pixel, and every alpha is forced to zero
otherwise. -/
theorem C7_watermark_alpha (img : Raster) (alpha : Nat) :
    (alpha ≠ 0 → adjust_alpha img alpha =
      ⟨img.width, img.height, img.rows.map (List.map fun px => ⟨px.r, px.g, px.b, alpha⟩)⟩)
    ∧ adjust_alpha img 0 =
      (if anyPixel (fun px => px.a == 0) img then img
       else ⟨img.width, img.height, img.rows.map (List.map fun px => ⟨px.r, px.g, px.b, 0⟩)⟩) := by
  constructor
  · intro ha
    unfold adjust_alpha
    have h1 : anyPixel (fun px => px.a == 0)
        (mapPixels (fun px => if px.a = 0 then ⟨px.r, px.g, px.b, alpha⟩ else px) img) =
        false := by
      unfold anyPixel mapPixels
      simp only [List.any_map, List.any_eq_false]
      intro row _ hany
      simp only [Function.comp_apply] at hany
      rcases List.any_eq_true.mp hany with ⟨px, hmem, hpx⟩
      rcases List.mem_map.mp hmem with ⟨q, _, rfl⟩
      by_cases h : q.a = 0 <;> simp [h, ha] at hpx
    rw [if_neg (by simp [h1])]
    unfold mapPixels
    simp only [List.map_map]
    congr 1
    apply List.map_congr_left
    intro row _
    simp only [Function.comp_apply, List.map_map]
    apply List.map_congr_left
    intro px _
    simp only [Function.comp_apply]
    by_cases h : px.a = 0 <;> simp [h]
  · unfold adjust_alpha
    have hid : mapPixels (fun px => if px.a = 0 then ⟨px.r, px.g, px.b, 0⟩ else px) img =
        img := by
      unfold mapPixels
      have hf : ∀ px : Pix,
          (if px.a = 0 then (⟨px.r, px.g, px.b, 0⟩ : Pix) else px) = px := by
        intro px
        cases px with
        | mk r g b a => by_cases h : a = 0 <;> simp [h]
      simp only [hf]
      cases img
      simp
    rw [hid]
    show (if anyPixel (fun px => px.a == 0) img then img
      else mapPixels (fun px => ⟨px.r, px.g, px.b, 0⟩) img) = _
    split <;> rfl

/-- Witness for `C7_watermark_alpha` at a one-pixel transparent raster and
the nonzero and zero requested alphas. -/
theorem C7_watermark_alpha_witness :
    adjust_alpha ⟨1, 1, [[⟨1, 2, 3, 0⟩]]⟩ 5 = ⟨1, 1, [[⟨1, 2, 3, 5⟩]]⟩
    ∧ adjust_alpha ⟨1, 1, [[⟨1, 2, 3, 0⟩]]⟩ 0 =
      (if anyPixel (fun px => px.a == 0) ⟨1, 1, [[⟨1, 2, 3, 0⟩]]⟩ then
        (⟨1, 1, [[⟨1, 2, 3, 0⟩]]⟩ : Raster)
       else ⟨1, 1, [[⟨1, 2, 3, 0⟩]]⟩) := by
  constructor
  · rw [(C7_watermark_alpha ⟨1, 1, [[⟨1, 2, 3, 0⟩]]⟩ 5).1 (by decide)]
    decide
  · rw [(C7_watermark_alpha ⟨1, 1, [[⟨1, 2, 3, 0⟩]]⟩ 0).2]
    decide

/-- C8: the code panics instead of returning `None` — for every input whose
base64 decoding succeeds but whose bytes the raster decoder rejects,
`decode_image_and_extract_text` aborts on `.decode().unwrap()`, contradicting
its own doc comment (`None` "if there was an error during image decoding"). -/
theorem C8_raster_decode_failure_panics (codec : ImgCodec) (input bytes : List Nat)
    (hdec : b64Decode input = some bytes) (hraster : codec.dec bytes = none) :
    decode_image_and_extract_text codec input = .panic := by
  simp [decode_image_and_extract_text, hdec, hraster]

/-- Witness for `C8_raster_decode_failure_panics` on the base64 string
`"AQ=="` (the single byte `1`, not a raster). -/
theorem C8_raster_decode_failure_panics_witness :
    decode_image_and_extract_text toyCodec (strBytes "AQ==") = .panic :=
  C8_raster_decode_failure_panics toyCodec (strBytes "AQ==") [1] (by decide) (by decide)

/-- C10: for every base64 input that decodes to a raster in which no pixel of
row 0 maps to an alphabet character (in particular a zero-width raster),
`decode_image_and_extract_text` panics on `extracted_text.remove(0)`. -/
theorem C10_empty_extraction_panics (codec : ImgCodec) (input bytes : List Nat)
    (img : Raster) (hdec : b64Decode input = some bytes)
    (himg : codec.dec bytes = some img)
    (hnone : ∀ x < img.width,
      numbers_to_letter (getPix img x 0).r (getPix img x 0).g (getPix img x 0).b = none) :
    decode_image_and_extract_text codec input = .panic := by
  have hex : extractRow0 img = [] := by
    unfold extractRow0
    rw [List.filterMap_eq_nil]
    intro x hx
    exact hnone x (List.mem_range.mp hx)
  simp [decode_image_and_extract_text, hdec, himg, hex]

/-- Witness for `C10_empty_extraction_panics`: a 1×1 raster whose single
pixel is black, outside the color table. -/
theorem C10_empty_extraction_panics_witness :
    decode_image_and_extract_text toyCodec
      (b64Encode (0 :: Nat.digits 256 (Encodable.encode
        (⟨1, 1, [[⟨0, 0, 0, 255⟩]]⟩ : Raster)))) = .panic := by
  have henc : toyCodec.enc ⟨1, 1, [[⟨0, 0, 0, 255⟩]]⟩ =
      some (0 :: Nat.digits 256 (Encodable.encode (⟨1, 1, [[⟨0, 0, 0, 255⟩]]⟩ : Raster))) :=
    rfl
  exact C10_empty_extraction_panics toyCodec _ _ _
    (b64Decode_b64Encode _ (toyCodec.enc_bytes _ _ henc))
    (toyCodec.dec_enc _ _ henc) (by decide)

theorem applyStyle_dims (style : String) (img : Raster) (n : Nat)
    (hw : img.width = n) (hh : img.height = n) :
    (applyStyle style img).width = n ∧ (applyStyle style img).height = n := by
  unfold applyStyle rotate90 rotate270 flipVertical buildRaster
  split_ifs <;> simp [hw, hh]

theorem styled_dims (style : String) (ct : List Char) (r g b : Nat) :
    (applyStyle style (createCanvas ct r g b)).width = byteLen ct
    ∧ (applyStyle style (createCanvas ct r g b)).height = byteLen ct :=
  applyStyle_dims style (createCanvas ct r g b) (byteLen ct) rfl rfl

theorem overlayImg_dims (blend : Pix → Pix → Pix) (bottom top : Raster) (ox oy : Nat) :
    (overlayImg blend bottom top ox oy).width = bottom.width
    ∧ (overlayImg blend bottom top ox oy).height = bottom.height :=
  ⟨rfl, rfl⟩

theorem utf8Len_pos (c : Char) : 1 ≤ utf8Len c := by
  unfold utf8Len
  split_ifs <;> norm_num

theorem byteLen_pos (ct : List Char) (h : ct ≠ []) : 1 ≤ byteLen ct := by
  cases ct with
  | nil => exact absurd rfl h
  | cons c t =>
      have hc := utf8Len_pos c
      simp only [byteLen, List.map_cons, List.sum_cons]
      omega

theorem byteLen_eq_length (ct : List Char) (h : ∀ c ∈ ct, utf8Len c = 1) :
    byteLen ct = ct.length := by
  induction ct with
  | nil => rfl
  | cons c t ih =>
      have hc : utf8Len c = 1 := h c (List.mem_cons_self c t)
      have ht := ih fun x hx => h x (List.mem_cons_of_mem c hx)
      unfold byteLen at ht ⊢
      simp only [List.map_cons, List.sum_cons, List.length_cons]
      omega

theorem sliceLastBytePanics_false (ct : List Char) (h : ∀ c ∈ ct, utf8Len c = 1) :
    sliceLastBytePanics ct = false := by
  unfold sliceLastBytePanics
  cases hl : ct.getLast? with
  | none => rfl
  | some last =>
      have h1 : utf8Len last = 1 := h last (List.mem_of_mem_getLast? hl)
      simp [h1]

/-- C9: the claim as stated fails twice on the code. At the empty ciphertext
the 0×0 canvas cannot be PNG-encoded, so `create_img` returns `None` even for
the built-in watermark `"bitcoin"` with alpha/width/height absent; and at the
one-character ciphertext `"é"` (whose final — only — character is two UTF-8
bytes) `create_img` panics on the byte slice `&ciphertext[..width - 1]`
before the watermark dispatch, instead of returning `None` for `"ethereum"`
with those parameters absent. -/
theorem C9_counterexample :
    create_img toyCodec ⟨"", "", ""⟩ [] "h" "bitcoin" none none none none none none =
      .ok none
    ∧ create_img toyCodec ⟨"", "", ""⟩ ['é'] "h" "ethereum" none none none none none
        none = .panic := by
  decide

/-- `create_img` with a watermark string that is not valid base64, no
alpha/width/height, a non-empty ciphertext and a single-byte final character
always succeeds: whether or not the built-in asset loads, the final canvas
keeps the `byteLen × byteLen` dimensions and PNG-encodes. -/
theorem create_img_isSome_of_non_base64 (codec : ImgCodec) (assets : Builtins)
    (ciphertext : List Char) (style : String) (r g b : Option Nat) (wm : String)
    (hfalse : (b64DecodeStr wm).isSome = false)
    (hsafe : sliceLastBytePanics ciphertext = false) (hct : ciphertext ≠ []) :
    isOkSome (create_img codec assets ciphertext style wm r g b none none none) =
      true := by
  have hn : 1 ≤ byteLen ciphertext := byteLen_pos ciphertext hct
  simp only [create_img, hsafe, hfalse, Bool.false_eq_true, if_false]
  cases hlw : load_watermark codec assets wm (some 0) (some 32) (some 32) with
  | none =>
      obtain ⟨bs, hbs⟩ := Option.isSome_iff_exists.mp
        (codec.enc_some (applyStyle style
            (createCanvas ciphertext (r.getD 100) (g.getD 134) (b.getD 131)))
          (by rw [(styled_dims style ciphertext _ _ _).1]; omega)
          (by rw [(styled_dims style ciphertext _ _ _).2]; omega))
      simp [hlw, hbs, isOkSome]
  | some wmImg =>
      obtain ⟨bs, hbs⟩ := Option.isSome_iff_exists.mp
        (codec.enc_some (overlayImg codec.blend
            (applyStyle style
              (createCanvas ciphertext (r.getD 100) (g.getD 134) (b.getD 131)))
            (adjust_alpha wmImg 0)
            (u32sub (byteLen ciphertext / 2) (32 / 2))
            (u32sub (byteLen ciphertext / 2) (32 / 2)))
          (by
            rw [(overlayImg_dims _ _ _ _ _).1, (styled_dims style ciphertext _ _ _).1]
            omega)
          (by
            rw [(overlayImg_dims _ _ _ _ _).2, (styled_dims style ciphertext _ _ _).2]
            omega))
      simp [hlw, hbs, isOkSome]

/-- C9 (amended): the name `"ethereum"` is itself valid base64 (8 alphabet
characters), unlike `"empty"`, `"bitcoin"` and `"cardano"` (lengths 5 and 7),
so `create_img` dispatches it down the caller-supplied-raster path. For every
ciphertext whose final character is a single UTF-8 byte (in particular every
ASCII ciphertext — on other ciphertexts `create_img` panics on the
transposition byte slice before the watermark dispatch) and every style:
watermark `"ethereum"` yields `None` whenever any of alpha, width or height
is absent, whereas the other three built-in names succeed with those
parameters absent whenever the ciphertext is also non-empty. -/
theorem C9_ethereum_dispatch :
    (b64DecodeStr "ethereum").isSome = true
    ∧ (b64DecodeStr "empty").isSome = false
    ∧ (b64DecodeStr "bitcoin").isSome = false
    ∧ (b64DecodeStr "cardano").isSome = false
    ∧ (∀ (codec : ImgCodec) (assets : Builtins) (ciphertext : List Char)
        (style : String) (r g b aOpt wOpt hOpt : Option Nat),
        sliceLastBytePanics ciphertext = false →
        aOpt = none ∨ wOpt = none ∨ hOpt = none →
        create_img codec assets ciphertext style "ethereum" r g b aOpt wOpt hOpt =
          .ok none)
    ∧ (∀ (codec : ImgCodec) (assets : Builtins) (ciphertext : List Char)
        (style : String) (r g b : Option Nat) (wm : String),
        wm = "empty" ∨ wm = "bitcoin" ∨ wm = "cardano" →
        sliceLastBytePanics ciphertext = false → ciphertext ≠ [] →
        isOkSome (create_img codec assets ciphertext style wm r g b none none none) =
          true) := by
  have heth : (b64DecodeStr "ethereum").isSome = true := by decide
  refine ⟨heth, by decide, by decide, by decide, ?_, ?_⟩
  · intro codec assets ciphertext style r g b aOpt wOpt hOpt hsafe habs
    cases aOpt <;> cases wOpt <;> cases hOpt <;>
      simp_all [create_img, heth]
  · intro codec assets ciphertext style r g b wm hwm hsafe hct
    have hfalse : (b64DecodeStr wm).isSome = false := by
      rcases hwm with rfl | rfl | rfl <;> decide
    exact create_img_isSome_of_non_base64 codec assets ciphertext style r g b wm
      hfalse hsafe hct

/-- Witness for `C9_ethereum_dispatch` on a one-character ASCII ciphertext. -/
theorem C9_ethereum_dispatch_witness :
    create_img toyCodec ⟨"", "", ""⟩ ['a'] "h" "ethereum" none none none none none
        none = .ok none
    ∧ isOkSome (create_img toyCodec ⟨"", "", ""⟩ ['a'] "h" "empty" none none none none
        none none) = true :=
  ⟨C9_ethereum_dispatch.2.2.2.2.1 toyCodec ⟨"", "", ""⟩ ['a'] "h" none none none none
      none none (by decide) (Or.inl rfl),
   C9_ethereum_dispatch.2.2.2.2.2 toyCodec ⟨"", "", ""⟩ ['a'] "h" none none none
      "empty" (Or.inl rfl) (by decide) (by decide)⟩

/-! ## C2: the image round trip under the identity style -/

theorem getD_mem_char (l : List Char) (x : Nat) (d : Char) (h : x < l.length) :
    l.getD x d ∈ l := by
  rw [List.getD_eq_getElem l d h]
  exact List.getElem_mem h

theorem range_map_getD (l : List Char) (d : Char) :
    (List.range l.length).map (fun x => l.getD x d) = l := by
  induction l with
  | nil => rfl
  | cons a l ih =>
      rw [List.length_cons, List.range_succ_eq_map, List.map_cons, List.map_map,
        List.getD_cons_zero,
        show ((fun x => (a :: l).getD x d) ∘ Nat.succ) = fun x => l.getD x d from
          funext fun x => List.getD_cons_succ, ih]

theorem shifted_length (ct : List Char) : (shiftedCiphertext ct).length = ct.length := by
  unfold shiftedCiphertext
  cases hl : ct.getLast? with
  | none => rfl
  | some last =>
      have hne : ct ≠ [] := by
        intro h
        subst h
        simp at hl
      have : 0 < ct.length := List.length_pos.mpr hne
      simp only [List.length_cons, List.length_take]
      omega

theorem shifted_mem (ct : List Char) (c : Char) :
    c ∈ shiftedCiphertext ct → c ∈ ct := by
  unfold shiftedCiphertext
  cases hl : ct.getLast? with
  | none => exact id
  | some last =>
      intro h
      rcases List.mem_cons.mp h with rfl | h
      · exact List.mem_of_mem_getLast? hl
      · exact List.mem_of_mem_take h

theorem shifted_cons (ct : List Char) (h : ct ≠ []) :
    shiftedCiphertext ct = ct.getLast h :: ct.take (ct.length - 1) := by
  unfold shiftedCiphertext
  rw [List.getLast?_eq_getLast ct h]

theorem getPix_diffuse_row0 (img : Raster) (o x : Nat) (hx : x < img.width)
    (hh : 0 < img.height) : getPix (diffuse img o) x 0 = getPix img x 0 := by
  unfold diffuse
  rw [getPix_buildRaster _ _ _ _ _ hx hh]
  simp

theorem tableAlphabet_utf8Len : ∀ c ∈ tableAlphabet, utf8Len c = 1 := by
  decide

theorem getPix_fillImage_row0 (ct : List Char) (r g b x : Nat) (hx : x < byteLen ct) :
    getPix (fillImage ct r g b) x 0 =
      ⟨((get_color ((shiftedCiphertext ct).getD x 'a')).getD (0, 0, 0)).1,
       ((get_color ((shiftedCiphertext ct).getD x 'a')).getD (0, 0, 0)).2.1,
       ((get_color ((shiftedCiphertext ct).getD x 'a')).getD (0, 0, 0)).2.2, 255⟩ := by
  unfold fillImage
  rw [getPix_buildRaster _ _ _ _ _ hx (by omega)]
  simp [fillColor]

theorem createCanvas_row0 (ct : List Char) (r g b x : Nat) (hx : x < byteLen ct) :
    getPix (createCanvas ct r g b) x 0 =
      ⟨((get_color ((shiftedCiphertext ct).getD x 'a')).getD (0, 0, 0)).1,
       ((get_color ((shiftedCiphertext ct).getD x 'a')).getD (0, 0, 0)).2.1,
       ((get_color ((shiftedCiphertext ct).getD x 'a')).getD (0, 0, 0)).2.2, 255⟩ := by
  show getPix (diffuse (fillImage ct r g b) _) x 0 = _
  rw [getPix_diffuse_row0 _ _ _ (show x < (fillImage ct r g b).width from hx)
    (show (0 : Nat) < byteLen ct by omega)]
  exact getPix_fillImage_row0 ct r g b x hx

theorem applyStyle_h (img : Raster) : applyStyle "h" img = img := rfl

theorem load_watermark_empty (codec : ImgCodec) (assets : Builtins)
    (a w h : Option Nat) : load_watermark codec assets "empty" a w h = none := by
  show codec.dec [] = none
  exact codec.dec_nil

theorem extractRow0_createCanvas (C : List Char) (halpha : ∀ c ∈ C, c ∈ tableAlphabet) :
    extractRow0 (createCanvas C 100 134 131) = shiftedCiphertext C := by
  have hascii : ∀ c ∈ C, utf8Len c = 1 := fun c hc =>
    tableAlphabet_utf8Len c (halpha c hc)
  have hbl : byteLen C = C.length := byteLen_eq_length C hascii
  unfold extractRow0
  rw [show (createCanvas C 100 134 131).width = byteLen C from rfl, hbl]
  rw [List.filterMap_congr
    (g := fun x => some ((shiftedCiphertext C).getD x 'a')) ?hpt]
  case hpt =>
    intro x hx
    have hx' : x < C.length := List.mem_range.mp hx
    have hxb : x < byteLen C := by rw [hbl]; exact hx'
    have hxs : x < (shiftedCiphertext C).length := by rw [shifted_length]; exact hx'
    have hc : (shiftedCiphertext C).getD x 'a' ∈ tableAlphabet :=
      halpha _ (shifted_mem C _ (getD_mem_char _ _ 'a' hxs))
    have hbij := table_bijection _ hc
    cases hgc : get_color ((shiftedCiphertext C).getD x 'a') with
    | none => rw [hgc] at hbij; simp at hbij
    | some t =>
        rw [hgc] at hbij
        simp only [Option.some_bind] at hbij
        simp only [createCanvas_row0 C 100 134 131 x hxb, hgc, Option.getD_some]
        exact hbij
  rw [List.filterMap_eq_map_iff_forall_eq_some.mpr (fun x _ => rfl), ← shifted_length C,
    range_map_getD]

/-- C2: image round trip under the identity style — for every ciphertext of
length at least 2 whose characters all belong to the 65-symbol alphabet
(hence ASCII: its byte length is its character count and the transposition
byte slice cannot panic), `create_img` with style `"h"`, watermark `"empty"`,
default bias channels and no alpha/width/height produces an image string from
which `decode_image_and_extract_text` recovers the ciphertext exactly. -/
theorem C2_image_round_trip (codec : ImgCodec) (assets : Builtins) (C : List Char)
    (hlen : 2 ≤ C.length) (halpha : ∀ c ∈ C, c ∈ tableAlphabet) :
    ∃ s, create_img codec assets C "h" "empty" none none none none none none =
        .ok (some s)
      ∧ decode_image_and_extract_text codec s = .ok (some C) := by
  have hne : C ≠ [] := by
    intro h
    subst h
    simp at hlen
  have hascii : ∀ c ∈ C, utf8Len c = 1 := fun c hc =>
    tableAlphabet_utf8Len c (halpha c hc)
  have hbl : byteLen C = C.length := byteLen_eq_length C hascii
  have hsafe : sliceLastBytePanics C = false := sliceLastBytePanics_false C hascii
  have hfalse : (b64DecodeStr "empty").isSome = false := by decide
  obtain ⟨bs, hbs⟩ := Option.isSome_iff_exists.mp
    (codec.enc_some (applyStyle "h" (createCanvas C 100 134 131))
      (by rw [(styled_dims "h" C 100 134 131).1, hbl]; omega)
      (by rw [(styled_dims "h" C 100 134 131).2, hbl]; omega))
  have hcreate : create_img codec assets C "h" "empty" none none none none none none =
      .ok (some (b64Encode bs)) := by
    simp only [create_img, hsafe, hfalse, Bool.false_eq_true, if_false,
      load_watermark_empty codec assets]
    simp only [Option.getD_none, Option.getD_some]
    rw [hbs]
  refine ⟨b64Encode bs, hcreate, ?_⟩
  have hbytes : ∀ x ∈ bs, x < 256 := codec.enc_bytes _ _ hbs
  have hdec : codec.dec bs = some (applyStyle "h" (createCanvas C 100 134 131)) :=
    codec.dec_enc _ _ hbs
  simp only [decode_image_and_extract_text, b64Decode_b64Encode bs hbytes, hdec,
    applyStyle_h, extractRow0_createCanvas C halpha, shifted_cons C hne]
  rw [← List.dropLast_eq_take, List.dropLast_concat_getLast hne]

/-- Witness for `C2_image_round_trip` on the two-character ciphertext
`"ab"`. -/
theorem C2_image_round_trip_witness :
    ∃ s, create_img toyCodec ⟨"", "", ""⟩ ['a', 'b'] "h" "empty" none none none none
        none none = .ok (some s)
      ∧ decode_image_and_extract_text toyCodec s = .ok (some ['a', 'b']) :=
  C2_image_round_trip toyCodec ⟨"", "", ""⟩ ['a', 'b'] (by decide) (by decide)
